import Mathlib

/-!
Shallow embedding of the queenbee repository-index and dependency-resolution
subsystem, translated from `queenbee/repository/index.py` and
`queenbee/recipe/dependency.py`.

Modelling conventions:
* Python `dict` values (`RepositoryIndex.operator`, `RepositoryIndex.recipe`)
  are modelled as functions `String → Option (List PackageRecord)`; `d.get(k)`
  is application, `d.get(k, [])` is `(d k).getD []`, and `d[k] = v` is a
  pointwise functional update.
* `OperatorVersion` and `RecipeVersion` share the fields the subsystem reads
  (`name`, `version`, `digest`, `url`); both are modelled by `PackageRecord`.
  The kind only selects which of the two maps a record lives in.
* Python exceptions (`ValueError`) are modelled with `Except String`, the
  error value being the exception's message string, because the source itself
  compares and substring-tests those message strings
  (`dependency.py` line 115, `index.py` line 142).
* `datetime.utcnow()` is modelled by an explicit `now : Nat` argument; file
  and network I/O (`os.listdir`, `from_package`, `urlopen`, `tarfile`) are
  boundary collaborators, so folders are passed as the lists of records their
  packages yield, a fetched tarball as its list of `(member name, bytes)`
  entries, and `hashlib.sha256(...).hexdigest()` as a function argument
  `hashHex`.
-/

namespace Queenbee

/-- The fields of `OperatorVersion` / `RecipeVersion` that the index and the
dependency resolver read: `name`, `version`, `digest` and the bundle `url`. -/
structure PackageRecord where
  name : String
  version : String
  digest : String
  url : String
deriving DecidableEq, Repr

/-- A Python dict mapping a package name to its list of version records.
`none` means the key is absent. -/
def ResourceDict : Type := String → Option (List PackageRecord)

/-- Pointwise update, the embedding of `resource_dict[name] = resource_list`. -/
def dictSet (d : ResourceDict) (n : String) (l : List PackageRecord) : ResourceDict :=
  fun m => if m = n then some l else d m

/-- The message of the `ValueError` raised at `index.py` line 116. -/
def conflictMsg (name version : String) : String :=
  "Resource " ++ name ++ " already has a version " ++ version ++ " in the index"

/-- `RepositoryIndex._index_resource_version` (`index.py` lines 104-123):
conflict-checked, de-duplicating insertion into one kind's dict. -/
def indexResourceVersion (resource_dict : ResourceDict) (resource_version : PackageRecord)
    (overwrite : Bool) : Except String ResourceDict :=
  let resource_list := (resource_dict resource_version.name).getD []
  if !overwrite && resource_list.any (fun x => x.version == resource_version.version) then
    .error (conflictMsg resource_version.name resource_version.version)
  else
    let resource_list := resource_list.filter (fun x => !(x.version == resource_version.version))
    .ok (dictSet resource_dict resource_version.name (resource_list ++ [resource_version]))

/-- `RepositoryIndex` (`index.py` lines 16-31): `generated` timestamp plus one
dict per kind. -/
structure RepositoryIndex where
  generated : Option Nat
  operator : ResourceDict
  recipe : ResourceDict

/-- `RepositoryIndex.parse_obj({})`: all fields at their defaults. -/
def emptyIndex : RepositoryIndex :=
  { generated := none, operator := fun _ => none, recipe := fun _ => none }

/-- `RepositoryIndex.index_recipe_version` (`index.py` lines 125-127): insert
into the recipe dict and refresh `generated`; the exception from
`_index_resource_version` propagates before any field is assigned. -/
def RepositoryIndex.indexRecipeVersion (idx : RepositoryIndex) (recipe_version : PackageRecord)
    (overwrite : Bool) (now : Nat) : Except String RepositoryIndex :=
  match indexResourceVersion idx.recipe recipe_version overwrite with
  | .error e => .error e
  | .ok d => .ok { idx with recipe := d, generated := some now }

/-- `RepositoryIndex.index_operator_version` (`index.py` lines 129-131). -/
def RepositoryIndex.indexOperatorVersion (idx : RepositoryIndex) (operator_version : PackageRecord)
    (overwrite : Bool) (now : Nat) : Except String RepositoryIndex :=
  match indexResourceVersion idx.operator operator_version overwrite with
  | .error e => .error e
  | .ok d => .ok { idx with operator := d, generated := some now }

/-- The two package kinds (`DependencyType`, `dependency.py` lines 15-19). -/
inductive DependencyType where
  | recipe
  | operator
deriving DecidableEq, Repr

/-- How a `DependencyType` renders inside an f-string (its `str` value). -/
def typeStr : DependencyType → String
  | .recipe => "recipe"
  | .operator => "operator"

/-- `getattr(self, package_type)` (`index.py` lines 165 and 185): the kind tag
selects one of the two dicts. -/
def RepositoryIndex.getDict (idx : RepositoryIndex) : DependencyType → ResourceDict
  | .recipe => idx.recipe
  | .operator => idx.operator

/-- Kind-dispatched insertion: `index_operator_version` / `index_recipe_version`
selected by the record's kind, as `index_resource` (`index.py` lines 92-96)
and `merge_folder` do. -/
def RepositoryIndex.indexVersion (idx : RepositoryIndex) (k : DependencyType)
    (r : PackageRecord) (overwrite : Bool) (now : Nat) : Except String RepositoryIndex :=
  match k with
  | .recipe => idx.indexRecipeVersion r overwrite now
  | .operator => idx.indexOperatorVersion r overwrite now

/-- The message of the `ValueError` raised at `index.py` lines 170 and 190. -/
def noNameMsg (t n : String) : String :=
  "No " ++ t ++ " package with name " ++ n ++ " exists in this index"

/-- The message of the `ValueError` raised at `index.py` line 175. -/
def noVersionMsg (t n v : String) : String :=
  "No " ++ t ++ " package with name " ++ n ++ " and version " ++ v ++ " exists in this index"

/-- The message of the `ValueError` raised at `index.py` line 195. -/
def noDigestMsg (t n dg : String) : String :=
  "No " ++ t ++ " package with name " ++ n ++ " and digest " ++ dg ++ " exists in this index"

/-- `RepositoryIndex.package_by_version` (`index.py` lines 159-177). -/
def RepositoryIndex.packageByVersion (idx : RepositoryIndex) (package_type : DependencyType)
    (package_name package_version : String) : Except String PackageRecord :=
  match idx.getDict package_type package_name with
  | none => .error (noNameMsg (typeStr package_type) package_name)
  | some package_list =>
    match package_list.find? (fun x => x.version == package_version) with
    | none => .error (noVersionMsg (typeStr package_type) package_name package_version)
    | some res => .ok res

/-- `RepositoryIndex.package_by_digest` (`index.py` lines 179-197). -/
def RepositoryIndex.packageByDigest (idx : RepositoryIndex) (package_type : DependencyType)
    (package_name package_digest : String) : Except String PackageRecord :=
  match idx.getDict package_type package_name with
  | none => .error (noNameMsg (typeStr package_type) package_name)
  | some package_list =>
    match package_list.find? (fun x => x.digest == package_digest) with
    | none => .error (noDigestMsg (typeStr package_type) package_name package_digest)
    | some res => .ok res

/-- `index_operator_version` applied to each package of the `operators`
subfolder in turn, any exception propagating (`index.py` lines 39-42 with the
default `overwrite=False`). The folder is given as the list of records its
packages yield, in enumeration order. -/
def RepositoryIndex.indexOperatorAll (idx : RepositoryIndex) (packages : List PackageRecord)
    (now : Nat) : Except String RepositoryIndex :=
  match packages with
  | [] => .ok idx
  | r :: rest =>
    match idx.indexOperatorVersion r false now with
    | .error e => .error e
    | .ok i => i.indexOperatorAll rest now

/-- `index_recipe_version` applied to each package of the `recipes` subfolder
in turn (`index.py` lines 44-47). -/
def RepositoryIndex.indexRecipeAll (idx : RepositoryIndex) (packages : List PackageRecord)
    (now : Nat) : Except String RepositoryIndex :=
  match packages with
  | [] => .ok idx
  | r :: rest =>
    match idx.indexRecipeVersion r false now with
    | .error e => .error e
    | .ok i => i.indexRecipeAll rest now

/-- `RepositoryIndex.from_folder` (`index.py` lines 34-49): start from
`parse_obj({})`, index every operator package, then every recipe package. -/
def RepositoryIndex.fromFolder (ops recs : List PackageRecord) (now : Nat) :
    Except String RepositoryIndex :=
  match emptyIndex.indexOperatorAll ops now with
  | .error e => .error e
  | .ok i => i.indexRecipeAll recs now

/-- Whether `pat` occurs as a contiguous run inside `l`: the embedding of
Python's `pat in s` substring test on the strings' character lists. -/
def hasSub (pat : List Char) : List Char → Bool
  | [] => pat.isEmpty
  | c :: rest => pat.isPrefixOf (c :: rest) || hasSub pat rest

/-- Python `'pat' in s` on strings. -/
def strContains (s pat : String) : Bool :=
  hasSub pat.toList s.toList

/-- The substring tested at `index.py` lines 142 and 153. -/
def conflictPat : String := "already has a version "

/-- The operator half of `RepositoryIndex.merge_folder` (`index.py` lines
136-145): insert each source record; on a `ValueError` whose message contains
`'already has a version '`, skip it when `skip` is set, otherwise re-raise. -/
def RepositoryIndex.mergeOperatorsGo (idx : RepositoryIndex) (packages : List PackageRecord)
    (overwrite skip : Bool) (now : Nat) : Except String RepositoryIndex :=
  match packages with
  | [] => .ok idx
  | r :: rest =>
    match idx.indexOperatorVersion r overwrite now with
    | .ok i => i.mergeOperatorsGo rest overwrite skip now
    | .error e =>
      if strContains e conflictPat && skip then idx.mergeOperatorsGo rest overwrite skip now
      else .error e

/-- The recipe half of `RepositoryIndex.merge_folder` (`index.py` lines
147-156). -/
def RepositoryIndex.mergeRecipesGo (idx : RepositoryIndex) (packages : List PackageRecord)
    (overwrite skip : Bool) (now : Nat) : Except String RepositoryIndex :=
  match packages with
  | [] => .ok idx
  | r :: rest =>
    match idx.indexRecipeVersion r overwrite now with
    | .ok i => i.mergeRecipesGo rest overwrite skip now
    | .error e =>
      if strContains e conflictPat && skip then idx.mergeRecipesGo rest overwrite skip now
      else .error e

/-- `RepositoryIndex.merge_folder` (`index.py` lines 134-156): merge the
source folder's operator packages, then its recipe packages. The source
folder is given as the two lists of records its packages yield. The mutation
of `self` is modelled by returning the updated index; an uncaught conflict
aborts the call, and the caller's persisted index is only ever written from a
returned (`.ok`) value. -/
def RepositoryIndex.mergeFolder (idx : RepositoryIndex) (ops recs : List PackageRecord)
    (overwrite skip : Bool) (now : Nat) : Except String RepositoryIndex :=
  match idx.mergeOperatorsGo ops overwrite skip now with
  | .error e => .error e
  | .ok i => i.mergeRecipesGo recs overwrite skip now

/-- `Dependency` (`dependency.py` lines 22-60): the reference being resolved.
`digest` carries Python's `None` as `Option.none`; the source field `alias`
is spelled `alias_` because `alias` is a Lean keyword. -/
structure Dependency where
  type : DependencyType
  name : String
  digest : Option String
  alias_ : Option String
  version : String
  source : String
deriving DecidableEq, Repr

/-- `Dependency.is_locked` (`dependency.py` lines 63-65). -/
def Dependency.isLocked (dep : Dependency) : Bool :=
  dep.digest.isSome

/-- `Dependency.ref_name` (`dependency.py` lines 68-72). -/
def Dependency.refName (dep : Dependency) : String :=
  match dep.alias_ with
  | some a => a
  | none => dep.name

/-- The locate phase of `Dependency.fetch` (`dependency.py` lines 96-124):
with no pinned digest, look up by version and lock the found digest onto the
reference; with a pinned digest, look up by digest, falling back to the
version lookup (and re-locking) exactly when the error message is the
name-and-digest-not-found one. The in-place `self.digest = ...` mutation is
modelled by returning the updated reference alongside the located record. -/
def Dependency.fetchLocate (dep : Dependency) (index : RepositoryIndex) :
    Except String (PackageRecord × Dependency) :=
  match dep.digest with
  | none =>
    match index.packageByVersion dep.type dep.name dep.version with
    | .error e => .error e
    | .ok package_meta => .ok (package_meta, { dep with digest := some package_meta.digest })
  | some dg =>
    match index.packageByDigest dep.type dep.name dg with
    | .ok package_meta => .ok (package_meta, dep)
    | .error e =>
      if e = noDigestMsg (typeStr dep.type) dep.name dg then
        match index.packageByVersion dep.type dep.name dep.version with
        | .error e2 => .error e2
        | .ok package_meta => .ok (package_meta, { dep with digest := some package_meta.digest })
      else .error e

/-- The message of the failed `assert` at `dependency.py` lines 139-143
(two adjacent Python string literals, hence no separator after `index`). -/
def integrityMsg (expected actual : String) : String :=
  "Hash of resource.json file is different from the one expected from the index" ++
    "Expected " ++ expected ++ " and got " ++ actual

/-- The message of the `ValueError` raised at `dependency.py` line 147. -/
def noResourceJsonMsg : String :=
  "package tar file did not contain a resource.json file so could not be decoded"

/-- `Dependency.fetch` (`dependency.py` lines 92-147). The index document and
the package tarball arrive over the network, so the caller supplies the parsed
index and the tar members as `(member name, bytes)` pairs; `hashHex` stands
for `hashlib.sha256(bytes).hexdigest()`. Returns the manifest bytes, the
digest they were checked against, and the (possibly digest-locked) updated
reference. -/
def Dependency.fetch (hashHex : List UInt8 → String) (dep : Dependency)
    (index : RepositoryIndex) (members : List (String × List UInt8)) (verifydigest : Bool) :
    Except String ((List UInt8 × String) × Dependency) :=
  match dep.fetchLocate index with
  | .error e => .error e
  | .ok (_, dep') =>
    match members.find? (fun member => member.fst == "resource.json") with
    | none => .error noResourceJsonMsg
    | some member =>
      let file_bytes := member.snd
      let dg := dep'.digest.getD ""
      if verifydigest && !(hashHex file_bytes == dg) then
        .error (integrityMsg dg (hashHex file_bytes))
      else
        .ok ((file_bytes, dg), dep')

/-! ## Specification-side predicates -/

/-- Whether the dict already holds a record of this name with this version:
the condition `_index_resource_version` raises `Conflict` on. -/
def hasNameVersion (d : ResourceDict) (n v : String) : Bool :=
  ((d n).getD []).any (fun x => x.version == v)

/-- A record's identity for conflict purposes. -/
def recordKey (r : PackageRecord) : String × String :=
  (r.name, r.version)

/-- No two records of the list share a `(name, version)` pair. -/
def keysNodup (l : List PackageRecord) : Prop :=
  (l.map recordKey).Nodup

instance (l : List PackageRecord) : Decidable (keysNodup l) := by
  unfold keysNodup; infer_instance

/-- The version-uniqueness invariant for one kind's dict: no name's list holds
two records with the same version. -/
def versionsNodup (d : ResourceDict) : Prop :=
  ∀ n, (((d n).getD []).map (fun r => r.version)).Nodup

/-- The spec's PackageIndex invariant, for both kinds. -/
def RepositoryIndex.Inv (idx : RepositoryIndex) : Prop :=
  versionsNodup idx.operator ∧ versionsNodup idx.recipe

/-- The records of a source list that survive a best-effort merge: a record is
dropped (it "conflicts") exactly when its `(name, version)` pair is already
`seen` — present in the target or contributed by an earlier kept record. -/
def keptRecs (seen : List (String × String)) : List PackageRecord → List PackageRecord
  | [] => []
  | r :: rest =>
    if recordKey r ∈ seen then keptRecs seen rest
    else r :: keptRecs (recordKey r :: seen) rest

/-- Write one kind's dict back into the index, refreshing `generated`, as
`index_recipe_version` / `index_operator_version` do on success. -/
def RepositoryIndex.setDict (idx : RepositoryIndex) (k : DependencyType) (d : ResourceDict)
    (now : Nat) : RepositoryIndex :=
  match k with
  | .recipe => { idx with recipe := d, generated := some now }
  | .operator => { idx with operator := d, generated := some now }

/-! ## Helper lemmas: the single-record insertion -/

theorem dictSet_same (d : ResourceDict) (n : String) (l : List PackageRecord) :
    dictSet d n l n = some l := by
  simp [dictSet]

theorem dictSet_other (d : ResourceDict) (n m : String) (l : List PackageRecord)
    (h : m ≠ n) : dictSet d n l m = d m := by
  simp [dictSet, h]

theorem indexVersion_eq (idx : RepositoryIndex) (k : DependencyType) (r : PackageRecord)
    (ow : Bool) (now : Nat) :
    idx.indexVersion k r ow now =
      match indexResourceVersion (idx.getDict k) r ow with
      | .error e => .error e
      | .ok d => .ok (idx.setDict k d now) := by
  cases k <;> rfl

theorem getDict_setDict_same (idx : RepositoryIndex) (k : DependencyType) (d : ResourceDict)
    (now : Nat) : (idx.setDict k d now).getDict k = d := by
  cases k <;> rfl

theorem generated_setDict (idx : RepositoryIndex) (k : DependencyType) (d : ResourceDict)
    (now : Nat) : (idx.setDict k d now).generated = some now := by
  cases k <;> rfl

theorem insert_conflict (d : ResourceDict) (r : PackageRecord)
    (h : hasNameVersion d r.name r.version = true) :
    indexResourceVersion d r false = .error (conflictMsg r.name r.version) := by
  unfold hasNameVersion at h
  simp [indexResourceVersion, h]

theorem insert_no_conflict (d : ResourceDict) (r : PackageRecord) (ow : Bool)
    (h : hasNameVersion d r.name r.version = false) :
    indexResourceVersion d r ow = .ok (dictSet d r.name (((d r.name).getD []) ++ [r])) := by
  unfold hasNameVersion at h
  have hfilter : ((d r.name).getD []).filter (fun x => !(x.version == r.version)) =
      (d r.name).getD [] := by
    apply List.filter_eq_self.mpr
    intro x hx
    have hx' := List.any_eq_false.mp h x hx
    simpa using hx'
  simp [indexResourceVersion, h, hfilter]

theorem insert_overwrite (d : ResourceDict) (r : PackageRecord) :
    indexResourceVersion d r true =
      .ok (dictSet d r.name
        ((((d r.name).getD []).filter (fun x => !(x.version == r.version))) ++ [r])) := by
  simp [indexResourceVersion]

theorem insert_ok_char (d : ResourceDict) (r : PackageRecord) (ow : Bool) (d' : ResourceDict)
    (h : indexResourceVersion d r ow = .ok d') :
    d' = dictSet d r.name
      ((((d r.name).getD []).filter (fun x => !(x.version == r.version))) ++ [r]) := by
  unfold indexResourceVersion at h
  by_cases hc : (!ow && ((d r.name).getD []).any fun x => x.version == r.version) = true
  · simp [hc] at h
  · simp only [hc, if_false, Bool.not_eq_true] at h
    simp at h
    exact h.symm

/-- After a no-conflict append insertion, a `(name, version)` pair is present
iff it was present before or is the inserted record's own pair. -/
theorem hasNameVersion_dictSet_append (d : ResourceDict) (r : PackageRecord) (n v : String) :
    hasNameVersion (dictSet d r.name (((d r.name).getD []) ++ [r])) n v = true ↔
      (hasNameVersion d n v = true ∨ (n, v) = recordKey r) := by
  by_cases hn : n = r.name
  · subst hn
    unfold hasNameVersion
    rw [dictSet_same]
    simp only [Option.getD_some, List.any_append, Bool.or_eq_true, List.any_cons,
      List.any_nil, Bool.or_false, recordKey, Prod.mk.injEq, beq_iff_eq]
    constructor
    · rintro (h | h)
      · exact Or.inl h
      · exact Or.inr ⟨trivial, h.symm⟩
    · rintro (h | ⟨-, h⟩)
      · exact Or.inl h
      · exact Or.inr h.symm
  · unfold hasNameVersion
    rw [dictSet_other d r.name n _ hn]
    constructor
    · exact fun h => Or.inl h
    · rintro (h | h)
      · exact h
      · exact absurd (congrArg Prod.fst h) hn

/-! ## Helper lemmas: strings and substrings -/

theorem toList_append (a b : String) : (a ++ b).toList = a.toList ++ b.toList := by
  simp [String.toList, String.data_append]

theorem isPrefixOf_self_append (p b : List Char) : p.isPrefixOf (p ++ b) = true := by
  induction p with
  | nil => simp [List.isPrefixOf]
  | cons c cs ih => simp [List.isPrefixOf, ih]

theorem hasSub_of_isPrefixOf (pat l : List Char) (h : pat.isPrefixOf l = true) :
    hasSub pat l = true := by
  cases l with
  | nil =>
    cases pat with
    | nil => rfl
    | cons c cs => simp [List.isPrefixOf] at h
  | cons c rest => simp [hasSub, h]

theorem hasSub_append (pat a b : List Char) : hasSub pat (a ++ pat ++ b) = true := by
  induction a with
  | nil =>
    exact hasSub_of_isPrefixOf _ _ (isPrefixOf_self_append pat b)
  | cons c a' ih =>
    have hcons : ((c :: a') ++ pat ++ b) = c :: (a' ++ pat ++ b) := by
      simp only [List.cons_append]
    rw [hcons]
    unfold hasSub
    rw [ih, Bool.or_true]

theorem conflictMsg_contains (n v : String) : strContains (conflictMsg n v) conflictPat = true := by
  have h := hasSub_append conflictPat.toList
    (("Resource " : String).toList ++ n.toList ++ [' '])
    (v.toList ++ (" in the index" : String).toList)
  unfold strContains conflictMsg
  rw [toList_append, toList_append, toList_append, toList_append]
  have hsp : (" already has a version " : String).toList = [' '] ++ conflictPat.toList := by decide
  rw [hsp]
  simpa [List.append_assoc] using h

theorem integrityMsg_contains_expected (e a : String) :
    strContains (integrityMsg e a) e = true := by
  have h := hasSub_append e.toList
    (("Hash of resource.json file is different from the one expected from the index" : String).toList
      ++ ("Expected " : String).toList)
    ((" and got " : String).toList ++ a.toList)
  unfold strContains integrityMsg
  rw [toList_append, toList_append, toList_append, toList_append]
  simpa [List.append_assoc] using h

theorem integrityMsg_contains_actual (e a : String) :
    strContains (integrityMsg e a) a = true := by
  have h := hasSub_append a.toList
    (("Hash of resource.json file is different from the one expected from the index" : String).toList
      ++ ("Expected " : String).toList ++ e.toList ++ (" and got " : String).toList)
    []
  unfold strContains integrityMsg
  rw [toList_append, toList_append, toList_append, toList_append]
  simpa [List.append_assoc] using h

theorem noNameMsg_ne_noVersionMsg (t n v : String) : noNameMsg t n ≠ noVersionMsg t n v := by
  intro h
  have h' := congrArg String.length h
  simp only [noNameMsg, noVersionMsg, String.length_append] at h'
  have e1 : (" and version " : String).length = 13 := by decide
  rw [e1] at h'
  omega

theorem noNameMsg_ne_noDigestMsg (t n dg : String) : noNameMsg t n ≠ noDigestMsg t n dg := by
  intro h
  have h' := congrArg String.length h
  simp only [noNameMsg, noDigestMsg, String.length_append] at h'
  have e1 : (" and digest " : String).length = 12 := by decide
  rw [e1] at h'
  omega

/-! ## Helper lemmas: invariant preservation and kept records -/

theorem versionsNodup_insert (d : ResourceDict) (r : PackageRecord) (ow : Bool)
    (d' : ResourceDict) (hd : versionsNodup d) (h : indexResourceVersion d r ow = .ok d') :
    versionsNodup d' := by
  have hchar := insert_ok_char d r ow d' h
  subst hchar
  intro n
  by_cases hn : n = r.name
  · subst hn
    rw [dictSet_same]
    simp only [Option.getD_some, List.map_append, List.map_cons, List.map_nil]
    rw [List.nodup_append]
    refine ⟨((List.filter_sublist _).map _).nodup (hd r.name), List.nodup_singleton _, ?_⟩
    intro x hx
    simp only [List.mem_singleton]
    intro hxv
    subst hxv
    rcases List.mem_map.mp hx with ⟨y, hy, hyv⟩
    have := List.of_mem_filter hy
    simp only [Bool.not_eq_true', beq_eq_false_iff_ne, ne_eq] at this
    exact this hyv
  · rw [dictSet_other _ _ _ _ hn]
    exact hd n

theorem keptRecs_length_le (seen : List (String × String)) (l : List PackageRecord) :
    (keptRecs seen l).length ≤ l.length := by
  induction l generalizing seen with
  | nil => simp [keptRecs]
  | cons r rest ih =>
    unfold keptRecs
    split
    · exact le_trans (ih seen) (Nat.le_succ _)
    · simpa using ih (recordKey r :: seen)

/-! ## Helper lemmas: unfolding equations -/

theorem keptRecs_cons (seen : List (String × String)) (r : PackageRecord)
    (rest : List PackageRecord) :
    keptRecs seen (r :: rest) =
      if recordKey r ∈ seen then keptRecs seen rest
      else r :: keptRecs (recordKey r :: seen) rest := rfl

theorem indexOperatorVersion_error (idx : RepositoryIndex) (r : PackageRecord) (ow : Bool)
    (now : Nat) (e : String) (h : indexResourceVersion idx.operator r ow = .error e) :
    idx.indexOperatorVersion r ow now = .error e := by
  unfold RepositoryIndex.indexOperatorVersion
  rw [h]

theorem indexOperatorVersion_ok (idx : RepositoryIndex) (r : PackageRecord) (ow : Bool)
    (now : Nat) (d : ResourceDict) (h : indexResourceVersion idx.operator r ow = .ok d) :
    idx.indexOperatorVersion r ow now =
      .ok { idx with operator := d, generated := some now } := by
  unfold RepositoryIndex.indexOperatorVersion
  rw [h]

theorem indexRecipeVersion_error (idx : RepositoryIndex) (r : PackageRecord) (ow : Bool)
    (now : Nat) (e : String) (h : indexResourceVersion idx.recipe r ow = .error e) :
    idx.indexRecipeVersion r ow now = .error e := by
  unfold RepositoryIndex.indexRecipeVersion
  rw [h]

theorem indexRecipeVersion_ok (idx : RepositoryIndex) (r : PackageRecord) (ow : Bool)
    (now : Nat) (d : ResourceDict) (h : indexResourceVersion idx.recipe r ow = .ok d) :
    idx.indexRecipeVersion r ow now =
      .ok { idx with recipe := d, generated := some now } := by
  unfold RepositoryIndex.indexRecipeVersion
  rw [h]

theorem mergeOperatorsGo_cons (idx : RepositoryIndex) (r : PackageRecord)
    (rest : List PackageRecord) (ow skip : Bool) (now : Nat) :
    idx.mergeOperatorsGo (r :: rest) ow skip now =
      match idx.indexOperatorVersion r ow now with
      | .ok i => i.mergeOperatorsGo rest ow skip now
      | .error e =>
        if strContains e conflictPat && skip then idx.mergeOperatorsGo rest ow skip now
        else .error e := rfl

theorem mergeRecipesGo_cons (idx : RepositoryIndex) (r : PackageRecord)
    (rest : List PackageRecord) (ow skip : Bool) (now : Nat) :
    idx.mergeRecipesGo (r :: rest) ow skip now =
      match idx.indexRecipeVersion r ow now with
      | .ok i => i.mergeRecipesGo rest ow skip now
      | .error e =>
        if strContains e conflictPat && skip then idx.mergeRecipesGo rest ow skip now
        else .error e := rfl

theorem indexOperatorAll_cons (idx : RepositoryIndex) (r : PackageRecord)
    (rest : List PackageRecord) (now : Nat) :
    idx.indexOperatorAll (r :: rest) now =
      match idx.indexOperatorVersion r false now with
      | .error e => .error e
      | .ok i => i.indexOperatorAll rest now := rfl

theorem indexRecipeAll_cons (idx : RepositoryIndex) (r : PackageRecord)
    (rest : List PackageRecord) (now : Nat) :
    idx.indexRecipeAll (r :: rest) now =
      match idx.indexRecipeVersion r false now with
      | .error e => .error e
      | .ok i => i.indexRecipeAll rest now := rfl

/-! ## Helper lemmas: the best-effort merge (skip = true) -/

theorem mergeOperatorsGo_skipTrue (ops : List PackageRecord) :
    ∀ (idx : RepositoryIndex) (seen : List (String × String)) (now : Nat),
    (∀ n v, hasNameVersion idx.operator n v = true ↔ (n, v) ∈ seen) →
    ∃ i', idx.mergeOperatorsGo ops false true now = .ok i' ∧
      i'.recipe = idx.recipe ∧
      ∀ n, (i'.operator n).getD [] =
        (idx.operator n).getD [] ++ (keptRecs seen ops).filter (fun x => x.name == n) := by
  induction ops with
  | nil =>
    intro idx seen now _
    exact ⟨idx, rfl, rfl, fun n => by simp [keptRecs]⟩
  | cons r rest ih =>
    intro idx seen now hseen
    by_cases hmem : recordKey r ∈ seen
    · have hconf : hasNameVersion idx.operator r.name r.version = true :=
        (hseen r.name r.version).mpr hmem
      have herr := indexOperatorVersion_error idx r false now _
        (insert_conflict idx.operator r hconf)
      have hstep : idx.mergeOperatorsGo (r :: rest) false true now =
          idx.mergeOperatorsGo rest false true now := by
        rw [mergeOperatorsGo_cons, herr]
        simp [conflictMsg_contains]
      rw [hstep]
      obtain ⟨i', h1, h2, h3⟩ := ih idx seen now hseen
      refine ⟨i', h1, h2, fun n => ?_⟩
      rw [keptRecs_cons, if_pos hmem]
      exact h3 n
    · have hconf : hasNameVersion idx.operator r.name r.version = false := by
        cases hcv : hasNameVersion idx.operator r.name r.version
        · rfl
        · exact absurd ((hseen r.name r.version).mp hcv) hmem
      have hins := indexOperatorVersion_ok idx r false now _
        (insert_no_conflict idx.operator r false hconf)
      have hstep : idx.mergeOperatorsGo (r :: rest) false true now =
          RepositoryIndex.mergeOperatorsGo
            { idx with
                operator := dictSet idx.operator r.name (((idx.operator r.name).getD []) ++ [r]),
                generated := some now }
            rest false true now := by
        rw [mergeOperatorsGo_cons, hins]
      rw [hstep]
      have hseen' : ∀ n v,
          hasNameVersion
            ({ idx with
                operator := dictSet idx.operator r.name (((idx.operator r.name).getD []) ++ [r]),
                generated := some now } : RepositoryIndex).operator n v = true ↔
            (n, v) ∈ (recordKey r :: seen) := by
        intro n v
        show hasNameVersion (dictSet idx.operator r.name (((idx.operator r.name).getD []) ++ [r])) n v
            = true ↔ _
        rw [hasNameVersion_dictSet_append]
        rw [hseen n v]
        simp [List.mem_cons]
        tauto
      obtain ⟨i', h1, h2, h3⟩ := ih _ (recordKey r :: seen) now hseen'
      refine ⟨i', h1, h2, fun n => ?_⟩
      rw [keptRecs_cons, if_neg hmem, h3 n]
      by_cases hn : n = r.name
      · subst hn
        show (dictSet idx.operator r.name (((idx.operator r.name).getD []) ++ [r]) r.name).getD []
            ++ _ = _
        rw [dictSet_same]
        have hp : (r.name == r.name) = true := by simp
        simp only [Option.getD_some, List.filter_cons, hp, if_true, List.append_assoc,
          List.singleton_append]
      · show (dictSet idx.operator r.name (((idx.operator r.name).getD []) ++ [r]) n).getD []
            ++ _ = _
        rw [dictSet_other _ _ _ _ hn]
        have hp : (r.name == n) = false := by
          simp only [beq_eq_false_iff_ne, ne_eq]
          exact fun h => hn h.symm
        simp only [List.filter_cons, hp, if_false, Bool.false_eq_true]

theorem mergeRecipesGo_skipTrue (recs : List PackageRecord) :
    ∀ (idx : RepositoryIndex) (seen : List (String × String)) (now : Nat),
    (∀ n v, hasNameVersion idx.recipe n v = true ↔ (n, v) ∈ seen) →
    ∃ i', idx.mergeRecipesGo recs false true now = .ok i' ∧
      i'.operator = idx.operator ∧
      ∀ n, (i'.recipe n).getD [] =
        (idx.recipe n).getD [] ++ (keptRecs seen recs).filter (fun x => x.name == n) := by
  induction recs with
  | nil =>
    intro idx seen now _
    exact ⟨idx, rfl, rfl, fun n => by simp [keptRecs]⟩
  | cons r rest ih =>
    intro idx seen now hseen
    by_cases hmem : recordKey r ∈ seen
    · have hconf : hasNameVersion idx.recipe r.name r.version = true :=
        (hseen r.name r.version).mpr hmem
      have herr := indexRecipeVersion_error idx r false now _
        (insert_conflict idx.recipe r hconf)
      have hstep : idx.mergeRecipesGo (r :: rest) false true now =
          idx.mergeRecipesGo rest false true now := by
        rw [mergeRecipesGo_cons, herr]
        simp [conflictMsg_contains]
      rw [hstep]
      obtain ⟨i', h1, h2, h3⟩ := ih idx seen now hseen
      refine ⟨i', h1, h2, fun n => ?_⟩
      rw [keptRecs_cons, if_pos hmem]
      exact h3 n
    · have hconf : hasNameVersion idx.recipe r.name r.version = false := by
        cases hcv : hasNameVersion idx.recipe r.name r.version
        · rfl
        · exact absurd ((hseen r.name r.version).mp hcv) hmem
      have hins := indexRecipeVersion_ok idx r false now _
        (insert_no_conflict idx.recipe r false hconf)
      have hstep : idx.mergeRecipesGo (r :: rest) false true now =
          RepositoryIndex.mergeRecipesGo
            { idx with
                recipe := dictSet idx.recipe r.name (((idx.recipe r.name).getD []) ++ [r]),
                generated := some now }
            rest false true now := by
        rw [mergeRecipesGo_cons, hins]
      rw [hstep]
      have hseen' : ∀ n v,
          hasNameVersion
            ({ idx with
                recipe := dictSet idx.recipe r.name (((idx.recipe r.name).getD []) ++ [r]),
                generated := some now } : RepositoryIndex).recipe n v = true ↔
            (n, v) ∈ (recordKey r :: seen) := by
        intro n v
        show hasNameVersion (dictSet idx.recipe r.name (((idx.recipe r.name).getD []) ++ [r])) n v
            = true ↔ _
        rw [hasNameVersion_dictSet_append]
        rw [hseen n v]
        simp [List.mem_cons]
        tauto
      obtain ⟨i', h1, h2, h3⟩ := ih _ (recordKey r :: seen) now hseen'
      refine ⟨i', h1, h2, fun n => ?_⟩
      rw [keptRecs_cons, if_neg hmem, h3 n]
      by_cases hn : n = r.name
      · subst hn
        show (dictSet idx.recipe r.name (((idx.recipe r.name).getD []) ++ [r]) r.name).getD []
            ++ _ = _
        rw [dictSet_same]
        have hp : (r.name == r.name) = true := by simp
        simp only [Option.getD_some, List.filter_cons, hp, if_true, List.append_assoc,
          List.singleton_append]
      · show (dictSet idx.recipe r.name (((idx.recipe r.name).getD []) ++ [r]) n).getD []
            ++ _ = _
        rw [dictSet_other _ _ _ _ hn]
        have hp : (r.name == n) = false := by
          simp only [beq_eq_false_iff_ne, ne_eq]
          exact fun h => hn h.symm
        simp only [List.filter_cons, hp, if_false, Bool.false_eq_true]

/-! ## Helper lemmas: the strict merge (skip = false) -/

theorem mergeOperatorsGo_skipFalse (ops : List PackageRecord) :
    ∀ (idx : RepositoryIndex) (seen : List (String × String)) (now : Nat),
    (∀ n v, hasNameVersion idx.operator n v = true ↔ (n, v) ∈ seen) →
    ((idx.mergeOperatorsGo ops false false now).isOk = true ↔ keptRecs seen ops = ops) ∧
    (∀ i', idx.mergeOperatorsGo ops false false now = .ok i' → i'.recipe = idx.recipe) := by
  induction ops with
  | nil =>
    intro idx seen now _
    refine ⟨by simp [RepositoryIndex.mergeOperatorsGo, keptRecs, Except.isOk, Except.toBool], ?_⟩
    intro i' h
    cases h
    rfl
  | cons r rest ih =>
    intro idx seen now hseen
    by_cases hmem : recordKey r ∈ seen
    · have hconf : hasNameVersion idx.operator r.name r.version = true :=
        (hseen r.name r.version).mpr hmem
      have herr := indexOperatorVersion_error idx r false now _
        (insert_conflict idx.operator r hconf)
      have hstep : idx.mergeOperatorsGo (r :: rest) false false now =
          .error (conflictMsg r.name r.version) := by
        rw [mergeOperatorsGo_cons, herr]
        simp
      rw [hstep]
      have hne : keptRecs seen (r :: rest) ≠ r :: rest := by
        rw [keptRecs_cons, if_pos hmem]
        intro h
        have := congrArg List.length h
        have hle := keptRecs_length_le seen rest
        simp only [List.length_cons] at this
        omega
      refine ⟨by simp [Except.isOk, Except.toBool, hne], ?_⟩
      intro i' h
      cases h
    · have hconf : hasNameVersion idx.operator r.name r.version = false := by
        cases hcv : hasNameVersion idx.operator r.name r.version
        · rfl
        · exact absurd ((hseen r.name r.version).mp hcv) hmem
      have hins := indexOperatorVersion_ok idx r false now _
        (insert_no_conflict idx.operator r false hconf)
      have hstep : idx.mergeOperatorsGo (r :: rest) false false now =
          RepositoryIndex.mergeOperatorsGo
            { idx with
                operator := dictSet idx.operator r.name (((idx.operator r.name).getD []) ++ [r]),
                generated := some now }
            rest false false now := by
        rw [mergeOperatorsGo_cons, hins]
      rw [hstep]
      have hseen' : ∀ n v,
          hasNameVersion
            ({ idx with
                operator := dictSet idx.operator r.name (((idx.operator r.name).getD []) ++ [r]),
                generated := some now } : RepositoryIndex).operator n v = true ↔
            (n, v) ∈ (recordKey r :: seen) := by
        intro n v
        show hasNameVersion (dictSet idx.operator r.name (((idx.operator r.name).getD []) ++ [r])) n v
            = true ↔ _
        rw [hasNameVersion_dictSet_append]
        rw [hseen n v]
        simp [List.mem_cons]
        tauto
      obtain ⟨hiff, hpres⟩ := ih _ (recordKey r :: seen) now hseen'
      constructor
      · rw [hiff, keptRecs_cons, if_neg hmem]
        constructor
        · intro h
          rw [h]
        · intro h
          exact (List.cons.injEq _ _ _ _ ▸ h).2
      · intro i' h
        exact hpres i' h

theorem mergeRecipesGo_skipFalse (recs : List PackageRecord) :
    ∀ (idx : RepositoryIndex) (seen : List (String × String)) (now : Nat),
    (∀ n v, hasNameVersion idx.recipe n v = true ↔ (n, v) ∈ seen) →
    ((idx.mergeRecipesGo recs false false now).isOk = true ↔ keptRecs seen recs = recs) := by
  induction recs with
  | nil =>
    intro idx seen now _
    simp [RepositoryIndex.mergeRecipesGo, keptRecs, Except.isOk, Except.toBool]
  | cons r rest ih =>
    intro idx seen now hseen
    by_cases hmem : recordKey r ∈ seen
    · have hconf : hasNameVersion idx.recipe r.name r.version = true :=
        (hseen r.name r.version).mpr hmem
      have herr := indexRecipeVersion_error idx r false now _
        (insert_conflict idx.recipe r hconf)
      have hstep : idx.mergeRecipesGo (r :: rest) false false now =
          .error (conflictMsg r.name r.version) := by
        rw [mergeRecipesGo_cons, herr]
        simp
      rw [hstep]
      have hne : keptRecs seen (r :: rest) ≠ r :: rest := by
        rw [keptRecs_cons, if_pos hmem]
        intro h
        have := congrArg List.length h
        have hle := keptRecs_length_le seen rest
        simp only [List.length_cons] at this
        omega
      simp [Except.isOk, Except.toBool, hne]
    · have hconf : hasNameVersion idx.recipe r.name r.version = false := by
        cases hcv : hasNameVersion idx.recipe r.name r.version
        · rfl
        · exact absurd ((hseen r.name r.version).mp hcv) hmem
      have hins := indexRecipeVersion_ok idx r false now _
        (insert_no_conflict idx.recipe r false hconf)
      have hstep : idx.mergeRecipesGo (r :: rest) false false now =
          RepositoryIndex.mergeRecipesGo
            { idx with
                recipe := dictSet idx.recipe r.name (((idx.recipe r.name).getD []) ++ [r]),
                generated := some now }
            rest false false now := by
        rw [mergeRecipesGo_cons, hins]
      rw [hstep]
      have hseen' : ∀ n v,
          hasNameVersion
            ({ idx with
                recipe := dictSet idx.recipe r.name (((idx.recipe r.name).getD []) ++ [r]),
                generated := some now } : RepositoryIndex).recipe n v = true ↔
            (n, v) ∈ (recordKey r :: seen) := by
        intro n v
        show hasNameVersion (dictSet idx.recipe r.name (((idx.recipe r.name).getD []) ++ [r])) n v
            = true ↔ _
        rw [hasNameVersion_dictSet_append]
        rw [hseen n v]
        simp [List.mem_cons]
        tauto
      rw [ih _ (recordKey r :: seen) now hseen', keptRecs_cons, if_neg hmem]
      constructor
      · intro h
        rw [h]
      · intro h
        exact (List.cons.injEq _ _ _ _ ▸ h).2

/-! ## Helper lemmas: invariant preservation through the folds -/

theorem mergeOperatorsGo_inv (ops : List PackageRecord) :
    ∀ (idx : RepositoryIndex) (ow skip : Bool) (now : Nat) (i' : RepositoryIndex),
    versionsNodup idx.operator → idx.mergeOperatorsGo ops ow skip now = .ok i' →
    versionsNodup i'.operator ∧ i'.recipe = idx.recipe := by
  induction ops with
  | nil =>
    intro idx ow skip now i' hd h
    cases h
    exact ⟨hd, rfl⟩
  | cons r rest ih =>
    intro idx ow skip now i' hd h
    rw [mergeOperatorsGo_cons] at h
    cases hres : indexResourceVersion idx.operator r ow with
    | ok d =>
      rw [indexOperatorVersion_ok idx r ow now d hres] at h
      dsimp only at h
      have hd' : versionsNodup d := versionsNodup_insert idx.operator r ow d hd hres
      exact ih { idx with operator := d, generated := some now } ow skip now i' hd' h
    | error e =>
      rw [indexOperatorVersion_error idx r ow now e hres] at h
      dsimp only at h
      by_cases hc : (strContains e conflictPat && skip) = true
      · rw [if_pos hc] at h
        exact ih idx ow skip now i' hd h
      · rw [if_neg hc] at h
        cases h

theorem mergeRecipesGo_inv (recs : List PackageRecord) :
    ∀ (idx : RepositoryIndex) (ow skip : Bool) (now : Nat) (i' : RepositoryIndex),
    versionsNodup idx.recipe → idx.mergeRecipesGo recs ow skip now = .ok i' →
    versionsNodup i'.recipe ∧ i'.operator = idx.operator := by
  induction recs with
  | nil =>
    intro idx ow skip now i' hd h
    cases h
    exact ⟨hd, rfl⟩
  | cons r rest ih =>
    intro idx ow skip now i' hd h
    rw [mergeRecipesGo_cons] at h
    cases hres : indexResourceVersion idx.recipe r ow with
    | ok d =>
      rw [indexRecipeVersion_ok idx r ow now d hres] at h
      dsimp only at h
      have hd' : versionsNodup d := versionsNodup_insert idx.recipe r ow d hd hres
      exact ih { idx with recipe := d, generated := some now } ow skip now i' hd' h
    | error e =>
      rw [indexRecipeVersion_error idx r ow now e hres] at h
      dsimp only at h
      by_cases hc : (strContains e conflictPat && skip) = true
      · rw [if_pos hc] at h
        exact ih idx ow skip now i' hd h
      · rw [if_neg hc] at h
        cases h

theorem indexOperatorAll_inv (ops : List PackageRecord) :
    ∀ (idx : RepositoryIndex) (now : Nat) (i' : RepositoryIndex),
    versionsNodup idx.operator → idx.indexOperatorAll ops now = .ok i' →
    versionsNodup i'.operator ∧ i'.recipe = idx.recipe := by
  induction ops with
  | nil =>
    intro idx now i' hd h
    cases h
    exact ⟨hd, rfl⟩
  | cons r rest ih =>
    intro idx now i' hd h
    rw [indexOperatorAll_cons] at h
    cases hres : indexResourceVersion idx.operator r false with
    | ok d =>
      rw [indexOperatorVersion_ok idx r false now d hres] at h
      dsimp only at h
      have hd' : versionsNodup d := versionsNodup_insert idx.operator r false d hd hres
      exact ih { idx with operator := d, generated := some now } now i' hd' h
    | error e =>
      rw [indexOperatorVersion_error idx r false now e hres] at h
      dsimp only at h
      cases h

theorem indexRecipeAll_inv (recs : List PackageRecord) :
    ∀ (idx : RepositoryIndex) (now : Nat) (i' : RepositoryIndex),
    versionsNodup idx.recipe → idx.indexRecipeAll recs now = .ok i' →
    versionsNodup i'.recipe ∧ i'.operator = idx.operator := by
  induction recs with
  | nil =>
    intro idx now i' hd h
    cases h
    exact ⟨hd, rfl⟩
  | cons r rest ih =>
    intro idx now i' hd h
    rw [indexRecipeAll_cons] at h
    cases hres : indexResourceVersion idx.recipe r false with
    | ok d =>
      rw [indexRecipeVersion_ok idx r false now d hres] at h
      dsimp only at h
      have hd' : versionsNodup d := versionsNodup_insert idx.recipe r false d hd hres
      exact ih { idx with recipe := d, generated := some now } now i' hd' h
    | error e =>
      rw [indexRecipeVersion_error idx r false now e hres] at h
      dsimp only at h
      cases h

/-! ## Helper lemmas: characterizing the from-folder build -/

theorem hasNV_of_filter_inv (d : ResourceDict) (pre : List PackageRecord)
    (hinv : ∀ n, (d n).getD [] = pre.filter (fun x => x.name == n)) (n v : String) :
    hasNameVersion d n v = true ↔ (n, v) ∈ pre.map recordKey := by
  unfold hasNameVersion
  rw [hinv n]
  simp only [List.any_eq_true, List.mem_filter, List.mem_map, recordKey, beq_iff_eq]
  constructor
  · rintro ⟨x, ⟨hx, hxn⟩, hxv⟩
    exact ⟨x, hx, by rw [hxn, hxv]⟩
  · rintro ⟨x, hx, hkey⟩
    have hxn : x.name = n := congrArg Prod.fst hkey
    have hxv : x.version = v := congrArg Prod.snd hkey
    exact ⟨x, ⟨hx, hxn⟩, hxv⟩

theorem indexOperatorAll_char (ops : List PackageRecord) :
    ∀ (idx : RepositoryIndex) (pre : List PackageRecord) (now : Nat),
    (∀ n, (idx.operator n).getD [] = pre.filter (fun x => x.name == n)) →
    keysNodup pre →
    (((idx.indexOperatorAll ops now).isOk = true) ↔ keysNodup (pre ++ ops)) ∧
    (∀ i', idx.indexOperatorAll ops now = .ok i' →
      i'.recipe = idx.recipe ∧
      ∀ n, (i'.operator n).getD [] = (pre ++ ops).filter (fun x => x.name == n)) := by
  induction ops with
  | nil =>
    intro idx pre now hinv hkeys
    refine ⟨?_, ?_⟩
    · constructor
      · intro _
        simpa using hkeys
      · intro _
        rfl
    · intro i' h
      cases h
      exact ⟨rfl, fun n => by simpa using hinv n⟩
  | cons r rest ih =>
    intro idx pre now hinv hkeys
    by_cases hc : (r.name, r.version) ∈ pre.map recordKey
    · have hconf : hasNameVersion idx.operator r.name r.version = true :=
        (hasNV_of_filter_inv idx.operator pre hinv r.name r.version).mpr hc
      have herr := indexOperatorVersion_error idx r false now _
        (insert_conflict idx.operator r hconf)
      have hstep : idx.indexOperatorAll (r :: rest) now =
          .error (conflictMsg r.name r.version) := by
        rw [indexOperatorAll_cons, herr]
      rw [hstep]
      have hnot : ¬ keysNodup (pre ++ r :: rest) := by
        intro hnd
        unfold keysNodup at hnd
        rw [List.map_append] at hnd
        rcases List.nodup_append.mp hnd with ⟨-, -, hdisj⟩
        exact hdisj hc (by simp [recordKey])
      refine ⟨?_, ?_⟩
      · constructor
        · intro hok
          simp [Except.isOk, Except.toBool] at hok
        · intro hnd
          exact absurd hnd hnot
      · intro i' h
        cases h
    · have hconf : hasNameVersion idx.operator r.name r.version = false := by
        cases hcv : hasNameVersion idx.operator r.name r.version
        · rfl
        · exact absurd ((hasNV_of_filter_inv idx.operator pre hinv r.name r.version).mp hcv) hc
      have hins := indexOperatorVersion_ok idx r false now _
        (insert_no_conflict idx.operator r false hconf)
      have hstep : idx.indexOperatorAll (r :: rest) now =
          ({ idx with
              operator := dictSet idx.operator r.name (((idx.operator r.name).getD []) ++ [r]),
              generated := some now } : RepositoryIndex).indexOperatorAll rest now := by
        rw [indexOperatorAll_cons, hins]
      rw [hstep]
      have hinv' : ∀ n,
          (({ idx with
              operator := dictSet idx.operator r.name (((idx.operator r.name).getD []) ++ [r]),
              generated := some now } : RepositoryIndex).operator n).getD [] =
            (pre ++ [r]).filter (fun x => x.name == n) := by
        intro n
        show (dictSet idx.operator r.name (((idx.operator r.name).getD []) ++ [r]) n).getD [] = _
        rw [List.filter_append]
        by_cases hn : n = r.name
        · subst hn
          rw [dictSet_same]
          simp only [Option.getD_some, hinv r.name]
          congr 1
          simp [List.filter_cons]
        · rw [dictSet_other _ _ _ _ hn, hinv n]
          have hp : (r.name == n) = false := by
            simp only [beq_eq_false_iff_ne, ne_eq]
            exact fun h => hn h.symm
          simp [List.filter_cons, hp]
      have hkeys' : keysNodup (pre ++ [r]) := by
        unfold keysNodup
        rw [List.map_append, List.nodup_append]
        refine ⟨hkeys, by simp, ?_⟩
        intro a ha hb
        simp only [List.map_cons, List.map_nil, List.mem_singleton] at hb
        subst hb
        exact hc (by simpa [recordKey] using ha)
      obtain ⟨hiff, hok⟩ := ih _ (pre ++ [r]) now hinv' hkeys'
      have happ : (pre ++ [r]) ++ rest = pre ++ r :: rest := by simp
      constructor
      · rw [hiff, happ]
      · intro i' h
        obtain ⟨hrec, hcontent⟩ := hok i' h
        exact ⟨hrec, fun n => by rw [hcontent n, happ]⟩

theorem indexRecipeAll_char (recs : List PackageRecord) :
    ∀ (idx : RepositoryIndex) (pre : List PackageRecord) (now : Nat),
    (∀ n, (idx.recipe n).getD [] = pre.filter (fun x => x.name == n)) →
    keysNodup pre →
    (((idx.indexRecipeAll recs now).isOk = true) ↔ keysNodup (pre ++ recs)) ∧
    (∀ i', idx.indexRecipeAll recs now = .ok i' →
      i'.operator = idx.operator ∧
      ∀ n, (i'.recipe n).getD [] = (pre ++ recs).filter (fun x => x.name == n)) := by
  induction recs with
  | nil =>
    intro idx pre now hinv hkeys
    refine ⟨?_, ?_⟩
    · constructor
      · intro _
        simpa using hkeys
      · intro _
        rfl
    · intro i' h
      cases h
      exact ⟨rfl, fun n => by simpa using hinv n⟩
  | cons r rest ih =>
    intro idx pre now hinv hkeys
    by_cases hc : (r.name, r.version) ∈ pre.map recordKey
    · have hconf : hasNameVersion idx.recipe r.name r.version = true :=
        (hasNV_of_filter_inv idx.recipe pre hinv r.name r.version).mpr hc
      have herr := indexRecipeVersion_error idx r false now _
        (insert_conflict idx.recipe r hconf)
      have hstep : idx.indexRecipeAll (r :: rest) now =
          .error (conflictMsg r.name r.version) := by
        rw [indexRecipeAll_cons, herr]
      rw [hstep]
      have hnot : ¬ keysNodup (pre ++ r :: rest) := by
        intro hnd
        unfold keysNodup at hnd
        rw [List.map_append] at hnd
        rcases List.nodup_append.mp hnd with ⟨-, -, hdisj⟩
        exact hdisj hc (by simp [recordKey])
      refine ⟨?_, ?_⟩
      · constructor
        · intro hok
          simp [Except.isOk, Except.toBool] at hok
        · intro hnd
          exact absurd hnd hnot
      · intro i' h
        cases h
    · have hconf : hasNameVersion idx.recipe r.name r.version = false := by
        cases hcv : hasNameVersion idx.recipe r.name r.version
        · rfl
        · exact absurd ((hasNV_of_filter_inv idx.recipe pre hinv r.name r.version).mp hcv) hc
      have hins := indexRecipeVersion_ok idx r false now _
        (insert_no_conflict idx.recipe r false hconf)
      have hstep : idx.indexRecipeAll (r :: rest) now =
          ({ idx with
              recipe := dictSet idx.recipe r.name (((idx.recipe r.name).getD []) ++ [r]),
              generated := some now } : RepositoryIndex).indexRecipeAll rest now := by
        rw [indexRecipeAll_cons, hins]
      rw [hstep]
      have hinv' : ∀ n,
          (({ idx with
              recipe := dictSet idx.recipe r.name (((idx.recipe r.name).getD []) ++ [r]),
              generated := some now } : RepositoryIndex).recipe n).getD [] =
            (pre ++ [r]).filter (fun x => x.name == n) := by
        intro n
        show (dictSet idx.recipe r.name (((idx.recipe r.name).getD []) ++ [r]) n).getD [] = _
        rw [List.filter_append]
        by_cases hn : n = r.name
        · subst hn
          rw [dictSet_same]
          simp only [Option.getD_some, hinv r.name]
          congr 1
          simp [List.filter_cons]
        · rw [dictSet_other _ _ _ _ hn, hinv n]
          have hp : (r.name == n) = false := by
            simp only [beq_eq_false_iff_ne, ne_eq]
            exact fun h => hn h.symm
          simp [List.filter_cons, hp]
      have hkeys' : keysNodup (pre ++ [r]) := by
        unfold keysNodup
        rw [List.map_append, List.nodup_append]
        refine ⟨hkeys, by simp, ?_⟩
        intro a ha hb
        simp only [List.map_cons, List.map_nil, List.mem_singleton] at hb
        subst hb
        exact hc (by simpa [recordKey] using ha)
      obtain ⟨hiff, hok⟩ := ih _ (pre ++ [r]) now hinv' hkeys'
      have happ : (pre ++ [r]) ++ rest = pre ++ r :: rest := by simp
      constructor
      · rw [hiff, happ]
      · intro i' h
        obtain ⟨hrec, hcontent⟩ := hok i' h
        exact ⟨hrec, fun n => by rw [hcontent n, happ]⟩

theorem fromFolder_char (ops recs : List PackageRecord) (now : Nat) :
    ((RepositoryIndex.fromFolder ops recs now).isOk = true ↔
      (keysNodup ops ∧ keysNodup recs)) ∧
    (∀ i, RepositoryIndex.fromFolder ops recs now = .ok i →
      (∀ n, (i.operator n).getD [] = ops.filter (fun x => x.name == n)) ∧
      (∀ n, (i.recipe n).getD [] = recs.filter (fun x => x.name == n))) := by
  have hinv0 : ∀ n, (emptyIndex.operator n).getD [] =
      ([] : List PackageRecord).filter (fun x => x.name == n) := by
    intro n
    simp [emptyIndex]
  have hkeys0 : keysNodup [] := by
    simp [keysNodup]
  obtain ⟨hiff₁, hok₁⟩ := indexOperatorAll_char ops emptyIndex [] now hinv0 hkeys0
  rw [List.nil_append] at hiff₁
  unfold RepositoryIndex.fromFolder
  cases hres : emptyIndex.indexOperatorAll ops now with
  | error e =>
    have hops : ¬ keysNodup ops := by
      rw [← hiff₁, hres]
      simp [Except.isOk, Except.toBool]
    refine ⟨?_, ?_⟩
    · constructor
      · intro h
        simp [Except.isOk, Except.toBool] at h
      · rintro ⟨h, -⟩
        exact absurd h hops
    · intro i h
      cases h
  | ok i₁ =>
    have hops : keysNodup ops := by
      rw [← hiff₁, hres]
      rfl
    obtain ⟨hrec₁, hcontent₁⟩ := hok₁ i₁ hres
    have hinv₁ : ∀ n, (i₁.recipe n).getD [] =
        ([] : List PackageRecord).filter (fun x => x.name == n) := by
      intro n
      rw [hrec₁]
      simp [emptyIndex]
    obtain ⟨hiff₂, hok₂⟩ := indexRecipeAll_char recs i₁ [] now hinv₁ hkeys0
    rw [List.nil_append] at hiff₂
    refine ⟨?_, ?_⟩
    · rw [hiff₂]
      exact ⟨fun h => ⟨hops, h⟩, fun h => h.2⟩
    · intro i h
      obtain ⟨hop₂, hcontent₂⟩ := hok₂ i h
      refine ⟨fun n => ?_, fun n => by simpa using hcontent₂ n⟩
      rw [hop₂, hcontent₁ n]
      simp

/-! ## Helper lemmas: kind-dispatched insertion and lookups -/

theorem indexVersion_conflict (idx : RepositoryIndex) (k : DependencyType) (r : PackageRecord)
    (now : Nat) (h : hasNameVersion (idx.getDict k) r.name r.version = true) :
    idx.indexVersion k r false now = .error (conflictMsg r.name r.version) := by
  cases k with
  | recipe => exact indexRecipeVersion_error idx r false now _ (insert_conflict idx.recipe r h)
  | operator => exact indexOperatorVersion_error idx r false now _ (insert_conflict idx.operator r h)

theorem indexVersion_overwrite_ok (idx : RepositoryIndex) (k : DependencyType) (r : PackageRecord)
    (now : Nat) :
    idx.indexVersion k r true now =
      .ok (idx.setDict k
        (dictSet (idx.getDict k) r.name
          ((((idx.getDict k) r.name).getD []).filter (fun x => !(x.version == r.version)) ++ [r]))
        now) := by
  cases k with
  | recipe => exact indexRecipeVersion_ok idx r true now _ (insert_overwrite idx.recipe r)
  | operator => exact indexOperatorVersion_ok idx r true now _ (insert_overwrite idx.operator r)

theorem indexVersion_ok_char (idx : RepositoryIndex) (k : DependencyType) (r : PackageRecord)
    (ow : Bool) (now : Nat) (i' : RepositoryIndex) (h : idx.indexVersion k r ow now = .ok i') :
    i'.getDict k =
      dictSet (idx.getDict k) r.name
        ((((idx.getDict k) r.name).getD []).filter (fun x => !(x.version == r.version)) ++ [r]) ∧
    i'.generated = some now := by
  cases k with
  | recipe =>
    unfold RepositoryIndex.indexVersion RepositoryIndex.indexRecipeVersion at h
    cases hres : indexResourceVersion idx.recipe r ow with
    | error e =>
      rw [hres] at h
      cases h
    | ok d =>
      rw [hres] at h
      dsimp only at h
      injection h with h
      subst h
      exact ⟨insert_ok_char idx.recipe r ow d hres, rfl⟩
  | operator =>
    unfold RepositoryIndex.indexVersion RepositoryIndex.indexOperatorVersion at h
    cases hres : indexResourceVersion idx.operator r ow with
    | error e =>
      rw [hres] at h
      cases h
    | ok d =>
      rw [hres] at h
      dsimp only at h
      injection h with h
      subst h
      exact ⟨insert_ok_char idx.operator r ow d hres, rfl⟩

theorem find?_append_of_none {α : Type} (p : α → Bool) (l₁ l₂ : List α)
    (h : l₁.find? p = none) : (l₁ ++ l₂).find? p = l₂.find? p := by
  induction l₁ with
  | nil => rfl
  | cons a as ih =>
    rw [List.cons_append]
    cases hpa : p a with
    | true =>
      simp [List.find?, hpa] at h
    | false =>
      simp only [List.find?, hpa] at h ⊢
      exact ih h

/-! ## Helper lemmas: the dependency locate phase -/

theorem fetchLocate_of_no_digest (dep : Dependency) (index : RepositoryIndex)
    (h : dep.digest = none) :
    dep.fetchLocate index =
      match index.packageByVersion dep.type dep.name dep.version with
      | .error e => .error e
      | .ok package_meta => .ok (package_meta, { dep with digest := some package_meta.digest }) := by
  unfold Dependency.fetchLocate
  rw [h]

theorem fetchLocate_of_digest (dep : Dependency) (index : RepositoryIndex) (dg : String)
    (h : dep.digest = some dg) :
    dep.fetchLocate index =
      match index.packageByDigest dep.type dep.name dg with
      | .ok package_meta => .ok (package_meta, dep)
      | .error e =>
        if e = noDigestMsg (typeStr dep.type) dep.name dg then
          match index.packageByVersion dep.type dep.name dep.version with
          | .error e2 => .error e2
          | .ok package_meta =>
            .ok (package_meta, { dep with digest := some package_meta.digest })
        else .error e := by
  unfold Dependency.fetchLocate
  rw [h]

theorem packageByVersion_none (idx : RepositoryIndex) (k : DependencyType) (n v : String)
    (h : idx.getDict k n = none) :
    idx.packageByVersion k n v = .error (noNameMsg (typeStr k) n) := by
  unfold RepositoryIndex.packageByVersion
  rw [h]

theorem packageByDigest_none (idx : RepositoryIndex) (k : DependencyType) (n dg : String)
    (h : idx.getDict k n = none) :
    idx.packageByDigest k n dg = .error (noNameMsg (typeStr k) n) := by
  unfold RepositoryIndex.packageByDigest
  rw [h]

theorem packageByVersion_some (idx : RepositoryIndex) (k : DependencyType) (n v : String)
    (l : List PackageRecord) (h : idx.getDict k n = some l) :
    idx.packageByVersion k n v =
      match l.find? (fun x => x.version == v) with
      | none => .error (noVersionMsg (typeStr k) n v)
      | some res => .ok res := by
  unfold RepositoryIndex.packageByVersion
  rw [h]

theorem packageByDigest_some (idx : RepositoryIndex) (k : DependencyType) (n dg : String)
    (l : List PackageRecord) (h : idx.getDict k n = some l) :
    idx.packageByDigest k n dg =
      match l.find? (fun x => x.digest == dg) with
      | none => .error (noDigestMsg (typeStr k) n dg)
      | some res => .ok res := by
  unfold RepositoryIndex.packageByDigest
  rw [h]

example :
    Dependency.fetchLocate
      { type := .recipe, name := "daylight-factor", digest := none, alias_ := none,
        version := "0.2.0", source := "s" }
      { generated := none, operator := fun _ => none,
        recipe := fun m => if m = "daylight-factor" then
          some [⟨"daylight-factor", "0.1.0", "A", "u1"⟩, ⟨"daylight-factor", "0.2.0", "B", "u2"⟩]
          else none } =
      .ok (⟨"daylight-factor", "0.2.0", "B", "u2"⟩,
        { type := .recipe, name := "daylight-factor", digest := some "B", alias_ := none,
          version := "0.2.0", source := "s" }) := rfl

example :
    Dependency.fetchLocate
      { type := .recipe, name := "daylight-factor", digest := some "stale", alias_ := none,
        version := "0.2.0", source := "s" }
      { generated := none, operator := fun _ => none,
        recipe := fun m => if m = "daylight-factor" then
          some [⟨"daylight-factor", "0.1.0", "A", "u1"⟩, ⟨"daylight-factor", "0.2.0", "B", "u2"⟩]
          else none } =
      .ok (⟨"daylight-factor", "0.2.0", "B", "u2"⟩,
        { type := .recipe, name := "daylight-factor", digest := some "B", alias_ := none,
          version := "0.2.0", source := "s" }) := rfl

example :
    Dependency.fetchLocate
      { type := .recipe, name := "daylight-factor", digest := none, alias_ := none,
        version := "9.9.9", source := "s" }
      { generated := none, operator := fun _ => none,
        recipe := fun m => if m = "daylight-factor" then
          some [⟨"daylight-factor", "0.1.0", "A", "u1"⟩]
          else none } =
      .error (noVersionMsg "recipe" "daylight-factor" "9.9.9") := rfl

/-- The caller-visible result of `index_operator_version` / `index_recipe_version`
under Python's exception semantics: on success the caller's `index` is the new
value, on a raised `ValueError` the caller still holds the unmodified index
(the source raises before assigning any field). -/
def RepositoryIndex.indexVersionRun (idx : RepositoryIndex) (k : DependencyType)
    (r : PackageRecord) (overwrite : Bool) (now : Nat) : RepositoryIndex × Option String :=
  match idx.indexVersion k r overwrite now with
  | .ok i => (i, none)
  | .error e => (idx, some e)

/-! ## Claim theorems -/

/-- Claim C1: for every index, record, and kind, inserting a record whose
`(kind, name, version)` already has an entry fails with the `Conflict`
`ValueError` when `overwrite` is false; when `overwrite` is true the insertion
succeeds, the new record replaces the old one (the old same-version entries
are filtered out and the new record appended), and afterwards the list for
that name contains exactly one entry for that version. -/
theorem insert_conflict_and_overwrite_replaces (idx : RepositoryIndex) (k : DependencyType)
    (r : PackageRecord) (now : Nat)
    (h : hasNameVersion (idx.getDict k) r.name r.version = true) :
    idx.indexVersion k r false now = .error (conflictMsg r.name r.version) ∧
    ∃ i', idx.indexVersion k r true now = .ok i' ∧
      i'.getDict k r.name =
        some ((((idx.getDict k) r.name).getD []).filter (fun x => !(x.version == r.version)) ++ [r]) ∧
      (((i'.getDict k) r.name).getD []).countP (fun x => x.version == r.version) = 1 ∧
      r ∈ ((i'.getDict k) r.name).getD [] := by
  refine ⟨indexVersion_conflict idx k r now h, ?_⟩
  refine ⟨_, indexVersion_overwrite_ok idx k r now, ?_, ?_, ?_⟩
  · rw [getDict_setDict_same]
    exact dictSet_same _ _ _
  · rw [getDict_setDict_same, dictSet_same]
    simp only [Option.getD_some, List.countP_append]
    have h1 : ((((idx.getDict k) r.name).getD []).filter
        (fun x => !(x.version == r.version))).countP (fun x => x.version == r.version) = 0 := by
      rw [List.countP_eq_zero]
      intro a ha
      have := List.of_mem_filter ha
      simpa using this
    rw [h1]
    simp [List.countP_cons]
  · rw [getDict_setDict_same, dictSet_same]
    simp

/-- Witness for C1 at the spec's concrete scenario: a second record for
`daylight-factor` version `0.1.0` conflicts. -/
theorem insert_conflict_and_overwrite_replaces_witness :
    RepositoryIndex.indexVersion
      { generated := none, operator := fun _ => none,
        recipe := fun m => if m = "daylight-factor" then
          some [⟨"daylight-factor", "0.1.0", "A", "u1"⟩] else none }
      .recipe ⟨"daylight-factor", "0.1.0", "A2", "u2"⟩ false 3 =
      .error (conflictMsg "daylight-factor" "0.1.0") :=
  (insert_conflict_and_overwrite_replaces
    { generated := none, operator := fun _ => none,
      recipe := fun m => if m = "daylight-factor" then
        some [⟨"daylight-factor", "0.1.0", "A", "u1"⟩] else none }
    .recipe ⟨"daylight-factor", "0.1.0", "A2", "u2"⟩ 3 (by decide)).1

/-- Claim C2: every mutating operation preserves the version-uniqueness
invariant: after any successful `indexVersion` (either kind, any `overwrite`),
any successful `merge_folder`, and any `from_folder` build, no name's list
holds two records with the same version. `index_resource`'s in-memory step is
exactly `indexVersion`. -/
theorem version_uniqueness_invariant :
    (∀ (idx : RepositoryIndex) (k : DependencyType) (r : PackageRecord) (ow : Bool) (now : Nat)
      (i' : RepositoryIndex), idx.Inv → idx.indexVersion k r ow now = .ok i' → i'.Inv) ∧
    (∀ (idx : RepositoryIndex) (ops recs : List PackageRecord) (ow skip : Bool) (now : Nat)
      (i' : RepositoryIndex), idx.Inv → idx.mergeFolder ops recs ow skip now = .ok i' → i'.Inv) ∧
    (∀ (ops recs : List PackageRecord) (now : Nat) (i' : RepositoryIndex),
      RepositoryIndex.fromFolder ops recs now = .ok i' → i'.Inv) := by
  have hempty : versionsNodup (fun _ => none) := by
    intro n
    simp
  refine ⟨?_, ?_, ?_⟩
  · intro idx k r ow now i' hinv h
    cases k with
    | recipe =>
      unfold RepositoryIndex.indexVersion RepositoryIndex.indexRecipeVersion at h
      cases hres : indexResourceVersion idx.recipe r ow with
      | error e =>
        rw [hres] at h
        cases h
      | ok d =>
        rw [hres] at h
        dsimp only at h
        injection h with h
        subst h
        exact ⟨hinv.1, versionsNodup_insert idx.recipe r ow d hinv.2 hres⟩
    | operator =>
      unfold RepositoryIndex.indexVersion RepositoryIndex.indexOperatorVersion at h
      cases hres : indexResourceVersion idx.operator r ow with
      | error e =>
        rw [hres] at h
        cases h
      | ok d =>
        rw [hres] at h
        dsimp only at h
        injection h with h
        subst h
        exact ⟨versionsNodup_insert idx.operator r ow d hinv.1 hres, hinv.2⟩
  · intro idx ops recs ow skip now i' hinv h
    unfold RepositoryIndex.mergeFolder at h
    cases hres : idx.mergeOperatorsGo ops ow skip now with
    | error e =>
      rw [hres] at h
      cases h
    | ok i₁ =>
      rw [hres] at h
      dsimp only at h
      obtain ⟨hop₁, hrec₁⟩ := mergeOperatorsGo_inv ops idx ow skip now i₁ hinv.1 hres
      have hrecnd : versionsNodup i₁.recipe := hrec₁ ▸ hinv.2
      obtain ⟨hrec', hop'⟩ := mergeRecipesGo_inv recs i₁ ow skip now i' hrecnd h
      exact ⟨hop' ▸ hop₁, hrec'⟩
  · intro ops recs now i' h
    unfold RepositoryIndex.fromFolder at h
    cases hres : emptyIndex.indexOperatorAll ops now with
    | error e =>
      rw [hres] at h
      cases h
    | ok i₁ =>
      rw [hres] at h
      dsimp only at h
      obtain ⟨hop₁, hrec₁⟩ := indexOperatorAll_inv ops emptyIndex now i₁ hempty hres
      have hrecnd : versionsNodup i₁.recipe := by
        rw [hrec₁]
        exact hempty
      obtain ⟨hrec', hop'⟩ := indexRecipeAll_inv recs i₁ now i' hrecnd h
      exact ⟨hop' ▸ hop₁, hrec'⟩

/-- Witness for C2: a concrete `from_folder` build satisfies the invariant. -/
theorem version_uniqueness_invariant_witness :
    RepositoryIndex.Inv
      { generated := some 0,
        operator := dictSet (fun _ => none) "op-a" [⟨"op-a", "1.0.0", "d", "u"⟩],
        recipe := fun _ => none } :=
  version_uniqueness_invariant.2.2 [⟨"op-a", "1.0.0", "d", "u"⟩] [] 0
    { generated := some 0,
      operator := dictSet (fun _ => none) "op-a" [⟨"op-a", "1.0.0", "d", "u"⟩],
      recipe := fun _ => none }
    rfl

/-- Claim C7: both lookups fail with the name-not-found `ValueError` when the
name is absent from the kind's dict, and with the key-specific `ValueError`
when the name exists but no record matches the version (resp. digest); the
two failure messages differ, so the cases are distinguishable from the error
content. -/
theorem lookup_failure_modes (idx : RepositoryIndex) (k : DependencyType) (n v dg : String) :
    (idx.getDict k n = none →
      idx.packageByVersion k n v = .error (noNameMsg (typeStr k) n) ∧
      idx.packageByDigest k n dg = .error (noNameMsg (typeStr k) n)) ∧
    (∀ l, idx.getDict k n = some l →
      (l.find? (fun x => x.version == v) = none →
        idx.packageByVersion k n v = .error (noVersionMsg (typeStr k) n v)) ∧
      (l.find? (fun x => x.digest == dg) = none →
        idx.packageByDigest k n dg = .error (noDigestMsg (typeStr k) n dg))) ∧
    noNameMsg (typeStr k) n ≠ noVersionMsg (typeStr k) n v ∧
    noNameMsg (typeStr k) n ≠ noDigestMsg (typeStr k) n dg := by
  refine ⟨?_, ?_, noNameMsg_ne_noVersionMsg _ _ _, noNameMsg_ne_noDigestMsg _ _ _⟩
  · intro h
    exact ⟨packageByVersion_none idx k n v h, packageByDigest_none idx k n dg h⟩
  · intro l hl
    constructor
    · intro hfind
      rw [packageByVersion_some idx k n v l hl, hfind]
    · intro hfind
      rw [packageByDigest_some idx k n dg l hl, hfind]

/-- Witness for C7 at a concrete index: missing name and missing version. -/
theorem lookup_failure_modes_witness :
    RepositoryIndex.packageByVersion
      { generated := none, operator := fun _ => none,
        recipe := fun m => if m = "a" then some [⟨"a", "1", "d", "u"⟩] else none }
      .recipe "missing" "1" = .error (noNameMsg "recipe" "missing") ∧
    RepositoryIndex.packageByVersion
      { generated := none, operator := fun _ => none,
        recipe := fun m => if m = "a" then some [⟨"a", "1", "d", "u"⟩] else none }
      .recipe "a" "2" = .error (noVersionMsg "recipe" "a" "2") :=
  ⟨((lookup_failure_modes
      { generated := none, operator := fun _ => none,
        recipe := fun m => if m = "a" then some [⟨"a", "1", "d", "u"⟩] else none }
      .recipe "missing" "1" "d").1 rfl).1,
   (((lookup_failure_modes
      { generated := none, operator := fun _ => none,
        recipe := fun m => if m = "a" then some [⟨"a", "1", "d", "u"⟩] else none }
      .recipe "a" "2" "d").2.1 [⟨"a", "1", "d", "u"⟩] rfl).1 rfl)⟩

/-- Claim C10: insertion is atomic under the caller's exception semantics: when
the name+version already exists and `overwrite` is false, the call raises the
`Conflict` `ValueError` and the caller's index — both kind dicts and
`generated` — is exactly the value it held before the call; `generated` is
set to the current time only on a successful insertion. -/
theorem insert_conflict_atomic (idx : RepositoryIndex) (k : DependencyType) (r : PackageRecord)
    (now : Nat) :
    (hasNameVersion (idx.getDict k) r.name r.version = true →
      idx.indexVersion k r false now = .error (conflictMsg r.name r.version) ∧
      (idx.indexVersionRun k r false now).fst = idx) ∧
    (∀ ow i', idx.indexVersion k r ow now = .ok i' → i'.generated = some now) := by
  constructor
  · intro h
    have he := indexVersion_conflict idx k r now h
    refine ⟨he, ?_⟩
    unfold RepositoryIndex.indexVersionRun
    rw [he]
  · intro ow i' h
    exact (indexVersion_ok_char idx k r ow now i' h).2

/-- Witness for C10 at a concrete conflicting insertion. -/
theorem insert_conflict_atomic_witness :
    (RepositoryIndex.indexVersionRun
      { generated := some 9, operator := fun _ => none,
        recipe := fun m => if m = "a" then some [⟨"a", "1", "d", "u"⟩] else none }
      .recipe ⟨"a", "1", "d2", "u2"⟩ false 77).fst =
      { generated := some 9, operator := fun _ => none,
        recipe := fun m => if m = "a" then some [⟨"a", "1", "d", "u"⟩] else none } :=
  ((insert_conflict_atomic
    { generated := some 9, operator := fun _ => none,
      recipe := fun m => if m = "a" then some [⟨"a", "1", "d", "u"⟩] else none }
    .recipe ⟨"a", "1", "d2", "u2"⟩ 77).1 (by decide)).2

/-- An index whose `recipe` dict maps `"a"` to one record of version `"1"`
with digest `"d"`; used to exhibit a digest collision across versions. -/
def c8Index : RepositoryIndex :=
  { generated := none, operator := fun _ => none,
    recipe := fun m => if m = "a" then some [⟨"a", "1", "d", "u1"⟩] else none }

/-- Inserting a second version `"2"` of `"a"` that reuses digest `"d"`. -/
def c8Inserted : Except String RepositoryIndex :=
  c8Index.indexVersion .recipe ⟨"a", "2", "d", "u2"⟩ false 5

/-- Counterexample to C8 as stated: the insertion of `⟨"a","2","d","u2"⟩`
succeeds, but `package_by_digest` for its own digest `"d"` returns the *older*
record `⟨"a","1","d","u1"⟩` (the first list entry with that digest), not the
record just inserted. -/
theorem lookup_inverse_counterexample :
    c8Inserted.toOption.map (fun i => i.packageByDigest .recipe "a" "d") =
      some (.ok ⟨"a", "1", "d", "u1"⟩) ∧
    (⟨"a", "1", "d", "u1"⟩ : PackageRecord) ≠ ⟨"a", "2", "d", "u2"⟩ :=
  ⟨rfl, by decide⟩

/-- Claim C8 (amended): lookups invert insertion, with digest lookup qualified
by digest uniqueness: for every record successfully inserted, looking it up by
its kind, name and its own version returns that exact record; looking it up
by its kind, name and its own digest returns that exact record provided no
record of a *different* version for that name shared its digest before the
insertion. (Unqualified, the digest half is false: `package_by_digest` returns
the first record in the name's list whose digest matches.) -/
theorem lookup_after_insert (idx : RepositoryIndex) (k : DependencyType) (r : PackageRecord)
    (ow : Bool) (now : Nat) (i' : RepositoryIndex)
    (h : idx.indexVersion k r ow now = .ok i') :
    i'.packageByVersion k r.name r.version = .ok r ∧
    ((∀ x ∈ ((idx.getDict k) r.name).getD [], x.version ≠ r.version → x.digest ≠ r.digest) →
      i'.packageByDigest k r.name r.digest = .ok r) := by
  obtain ⟨hdict, -⟩ := indexVersion_ok_char idx k r ow now i' h
  have hlist : i'.getDict k r.name =
      some ((((idx.getDict k) r.name).getD []).filter (fun x => !(x.version == r.version)) ++ [r]) := by
    rw [hdict]
    exact dictSet_same _ _ _
  constructor
  · rw [packageByVersion_some i' k r.name r.version _ hlist]
    have hnone : ((((idx.getDict k) r.name).getD []).filter
        (fun x => !(x.version == r.version))).find? (fun x => x.version == r.version) = none := by
      rw [List.find?_eq_none]
      intro x hx
      have := List.of_mem_filter hx
      simpa using this
    rw [find?_append_of_none _ _ _ hnone]
    simp [List.find?]
  · intro hdig
    rw [packageByDigest_some i' k r.name r.digest _ hlist]
    have hnone : ((((idx.getDict k) r.name).getD []).filter
        (fun x => !(x.version == r.version))).find? (fun x => x.digest == r.digest) = none := by
      rw [List.find?_eq_none]
      intro x hx
      have hxmem := List.mem_of_mem_filter hx
      have hxver : x.version ≠ r.version := by
        have := List.of_mem_filter hx
        simpa using this
      have := hdig x hxmem hxver
      simpa using this
    rw [find?_append_of_none _ _ _ hnone]
    simp [List.find?]

/-- Witness for the amended C8: insert into an empty index, then both lookups
return the inserted record. -/
theorem lookup_after_insert_witness :
    RepositoryIndex.packageByVersion
      { generated := some 4, operator := fun _ => none,
        recipe := dictSet (fun _ => none) "x" [⟨"x", "1", "dx", "ux"⟩] }
      .recipe "x" "1" = .ok ⟨"x", "1", "dx", "ux"⟩ ∧
    RepositoryIndex.packageByDigest
      { generated := some 4, operator := fun _ => none,
        recipe := dictSet (fun _ => none) "x" [⟨"x", "1", "dx", "ux"⟩] }
      .recipe "x" "dx" = .ok ⟨"x", "1", "dx", "ux"⟩ := by
  have h := lookup_after_insert emptyIndex .recipe ⟨"x", "1", "dx", "ux"⟩ false 4
    { generated := some 4, operator := fun _ => none,
      recipe := dictSet (fun _ => none) "x" [⟨"x", "1", "dx", "ux"⟩] }
    rfl
  refine ⟨h.1, h.2 ?_⟩
  intro x hx
  simp [emptyIndex, RepositoryIndex.getDict] at hx

theorem fetch_of_locate_ok (hashHex : List UInt8 → String) (dep : Dependency)
    (index : RepositoryIndex) (members : List (String × List UInt8)) (vd : Bool)
    (pm : PackageRecord) (dep' : Dependency)
    (h : dep.fetchLocate index = .ok (pm, dep')) :
    dep.fetch hashHex index members vd =
      match members.find? (fun member => member.fst == "resource.json") with
      | none => .error noResourceJsonMsg
      | some member =>
        if vd && !(hashHex member.snd == dep'.digest.getD "") then
          .error (integrityMsg (dep'.digest.getD "") (hashHex member.snd))
        else .ok ((member.snd, dep'.digest.getD ""), dep') := by
  unfold Dependency.fetch
  rw [h]

theorem fetch_of_locate_error (hashHex : List UInt8 → String) (dep : Dependency)
    (index : RepositoryIndex) (members : List (String × List UInt8)) (vd : Bool) (e : String)
    (h : dep.fetchLocate index = .error e) :
    dep.fetch hashHex index members vd = .error e := by
  unfold Dependency.fetch
  rw [h]

/-- Claim C3: with digest verification on (the default), if the SHA-256 hex
digest of the located `resource.json` bytes differs from the expected digest
held on the (locked) reference, `fetch` fails with the integrity `ValueError`
— whose message contains both the expected and the actual digest — and
returns no manifest bytes. -/
theorem fetch_integrity_error (hashHex : List UInt8 → String) (dep : Dependency)
    (index : RepositoryIndex) (members : List (String × List UInt8))
    (pm : PackageRecord) (dep' : Dependency) (member : String × List UInt8)
    (hloc : dep.fetchLocate index = .ok (pm, dep'))
    (hfind : members.find? (fun m => m.fst == "resource.json") = some member)
    (hne : hashHex member.snd ≠ dep'.digest.getD "") :
    dep.fetch hashHex index members true =
      .error (integrityMsg (dep'.digest.getD "") (hashHex member.snd)) ∧
    strContains (integrityMsg (dep'.digest.getD "") (hashHex member.snd))
      (dep'.digest.getD "") = true ∧
    strContains (integrityMsg (dep'.digest.getD "") (hashHex member.snd))
      (hashHex member.snd) = true := by
  refine ⟨?_, integrityMsg_contains_expected _ _, integrityMsg_contains_actual _ _⟩
  rw [fetch_of_locate_ok hashHex dep index members true pm dep' hloc, hfind]
  have hbe : (hashHex member.snd == dep'.digest.getD "") = false := by
    simpa using hne
  simp [hbe]

/-- Witness for C3: a tarball whose `resource.json` hashes to `"X"` against a
reference locked to `"B"` fails with the integrity message naming both. -/
theorem fetch_integrity_error_witness :
    Dependency.fetch (fun _ => "X")
      { type := .recipe, name := "daylight-factor", digest := some "B", alias_ := none,
        version := "0.2.0", source := "s" }
      { generated := none, operator := fun _ => none,
        recipe := fun m => if m = "daylight-factor" then
          some [⟨"daylight-factor", "0.2.0", "B", "u2"⟩] else none }
      [("resource.json", [0, 1])] true = .error (integrityMsg "B" "X") :=
  (fetch_integrity_error (fun _ => "X")
    { type := .recipe, name := "daylight-factor", digest := some "B", alias_ := none,
      version := "0.2.0", source := "s" }
    { generated := none, operator := fun _ => none,
      recipe := fun m => if m = "daylight-factor" then
        some [⟨"daylight-factor", "0.2.0", "B", "u2"⟩] else none }
    [("resource.json", [0, 1])]
    ⟨"daylight-factor", "0.2.0", "B", "u2"⟩
    { type := .recipe, name := "daylight-factor", digest := some "B", alias_ := none,
      version := "0.2.0", source := "s" }
    ("resource.json", [0, 1]) rfl rfl (by decide)).1

/-- Claim C4: for a reference with a pinned digest, when the name's list exists
but holds no record with that digest while a record with the reference's
version does exist (necessarily under a different digest), the locate phase
succeeds through the version-lookup fallback and re-locks the reference to
the newly located digest; when the name is absent from the index entirely the
name-not-found failure propagates unchanged (the fallback test compares the
message against the digest-not-found text, which it never equals). -/
theorem digest_fallback (dep : Dependency) (index : RepositoryIndex) :
    (∀ dg l pm, dep.digest = some dg →
      index.getDict dep.type dep.name = some l →
      l.find? (fun x => x.digest == dg) = none →
      l.find? (fun x => x.version == dep.version) = some pm →
      dep.fetchLocate index = .ok (pm, { dep with digest := some pm.digest }) ∧
      pm.digest ≠ dg) ∧
    (∀ dg, dep.digest = some dg →
      index.getDict dep.type dep.name = none →
      dep.fetchLocate index = .error (noNameMsg (typeStr dep.type) dep.name)) := by
  constructor
  · intro dg l pm hdg hl hfd hfv
    have hbd : index.packageByDigest dep.type dep.name dg =
        .error (noDigestMsg (typeStr dep.type) dep.name dg) := by
      rw [packageByDigest_some index dep.type dep.name dg l hl, hfd]
    have hbv : index.packageByVersion dep.type dep.name dep.version = .ok pm := by
      rw [packageByVersion_some index dep.type dep.name dep.version l hl, hfv]
    refine ⟨?_, ?_⟩
    · rw [fetchLocate_of_digest dep index dg hdg, hbd]
      dsimp only
      rw [if_pos rfl, hbv]
    · have hmem : pm ∈ l := List.mem_of_find?_eq_some hfv
      have := List.find?_eq_none.mp hfd pm hmem
      simpa using this
  · intro dg hdg hname
    rw [fetchLocate_of_digest dep index dg hdg,
      packageByDigest_none index dep.type dep.name dg hname]
    dsimp only
    rw [if_neg (noNameMsg_ne_noDigestMsg (typeStr dep.type) dep.name dg)]

/-- Witness for C4 at the spec's concrete scenario: pinned digest `"stale"`
matches nothing, version `0.2.0` exists under digest `"B"`, so locate falls
back and re-locks to `"B"`. -/
theorem digest_fallback_witness :
    Dependency.fetchLocate
      { type := .recipe, name := "daylight-factor", digest := some "stale", alias_ := none,
        version := "0.2.0", source := "s" }
      { generated := none, operator := fun _ => none,
        recipe := fun m => if m = "daylight-factor" then
          some [⟨"daylight-factor", "0.1.0", "A", "u1"⟩, ⟨"daylight-factor", "0.2.0", "B", "u2"⟩]
          else none } =
      .ok (⟨"daylight-factor", "0.2.0", "B", "u2"⟩,
        { type := .recipe, name := "daylight-factor", digest := some "B", alias_ := none,
          version := "0.2.0", source := "s" }) ∧
    ("B" : String) ≠ "stale" :=
  (digest_fallback
    { type := .recipe, name := "daylight-factor", digest := some "stale", alias_ := none,
      version := "0.2.0", source := "s" }
    { generated := none, operator := fun _ => none,
      recipe := fun m => if m = "daylight-factor" then
        some [⟨"daylight-factor", "0.1.0", "A", "u1"⟩, ⟨"daylight-factor", "0.2.0", "B", "u2"⟩]
        else none }).1
    "stale"
    [⟨"daylight-factor", "0.1.0", "A", "u1"⟩, ⟨"daylight-factor", "0.2.0", "B", "u2"⟩]
    ⟨"daylight-factor", "0.2.0", "B", "u2"⟩ rfl rfl rfl rfl

/-- Claim C5: for a reference with no pinned digest, any successful `fetch`
leaves the returned reference locked (`digest` present) to exactly the digest
published in the index for that name and version; and when no matching
name/version exists the locate phase fails with the corresponding
not-found `ValueError`. -/
theorem fetch_locks_digest (dep : Dependency) (index : RepositoryIndex)
    (h : dep.digest = none) :
    (∀ (hashHex : List UInt8 → String) (members : List (String × List UInt8))
      (verifydigest : Bool) (out : List UInt8 × String) (dep' : Dependency),
      dep.fetch hashHex index members verifydigest = .ok (out, dep') →
      dep'.isLocked = true ∧
      ∃ pm, index.packageByVersion dep.type dep.name dep.version = .ok pm ∧
        dep'.digest = some pm.digest) ∧
    (index.getDict dep.type dep.name = none →
      dep.fetchLocate index = .error (noNameMsg (typeStr dep.type) dep.name)) ∧
    (∀ l, index.getDict dep.type dep.name = some l →
      l.find? (fun x => x.version == dep.version) = none →
      dep.fetchLocate index = .error (noVersionMsg (typeStr dep.type) dep.name dep.version)) := by
  refine ⟨?_, ?_, ?_⟩
  · intro hashHex members verifydigest out dep' hfetch
    cases hpv : index.packageByVersion dep.type dep.name dep.version with
    | error e =>
      have hlocate : dep.fetchLocate index = .error e := by
        rw [fetchLocate_of_no_digest dep index h, hpv]
      rw [fetch_of_locate_error hashHex dep index members verifydigest e hlocate] at hfetch
      cases hfetch
    | ok pm =>
      have hlocate : dep.fetchLocate index =
          .ok (pm, { dep with digest := some pm.digest }) := by
        rw [fetchLocate_of_no_digest dep index h, hpv]
      rw [fetch_of_locate_ok hashHex dep index members verifydigest pm _ hlocate] at hfetch
      cases hfind : members.find? (fun member => member.fst == "resource.json") with
      | none =>
        rw [hfind] at hfetch
        cases hfetch
      | some member =>
        rw [hfind] at hfetch
        dsimp only at hfetch
        by_cases hcond : (verifydigest &&
            !(hashHex member.snd ==
              (({ dep with digest := some pm.digest} : Dependency).digest.getD ""))) = true
        · rw [if_pos hcond] at hfetch
          cases hfetch
        · rw [if_neg hcond] at hfetch
          injection hfetch with hfetch
          have hdep' : dep' = { dep with digest := some pm.digest } :=
            (congrArg Prod.snd hfetch).symm
          subst hdep'
          exact ⟨rfl, pm, rfl, rfl⟩
  · intro hname
    rw [fetchLocate_of_no_digest dep index h,
      packageByVersion_none index dep.type dep.name dep.version hname]
  · intro l hl hfind
    rw [fetchLocate_of_no_digest dep index h,
      packageByVersion_some index dep.type dep.name dep.version l hl, hfind]

/-- Witness for C5: a successful fetch of unlocked `daylight-factor 0.2.0`
locks the reference. -/
theorem fetch_locks_digest_witness :
    Dependency.isLocked
      { type := .recipe, name := "daylight-factor", digest := some "B", alias_ := none,
        version := "0.2.0", source := "s" } = true :=
  ((fetch_locks_digest
    { type := .recipe, name := "daylight-factor", digest := none, alias_ := none,
      version := "0.2.0", source := "s" }
    { generated := none, operator := fun _ => none,
      recipe := fun m => if m = "daylight-factor" then
        some [⟨"daylight-factor", "0.2.0", "B", "u2"⟩] else none }
    rfl).1
    (fun _ => "B") [("resource.json", [0, 1])] true ([0, 1], "B")
    { type := .recipe, name := "daylight-factor", digest := some "B", alias_ := none,
      version := "0.2.0", source := "s" }
    rfl).1

/-- Claim C6: merging a source folder into an index with `overwrite=false`:
with `skip=true` the merge always completes, the target's records are all
retained, and each name's list gains exactly the non-conflicting source
records (`keptRecs` drops a source record precisely when its
`(name, version)` is already in the target — enumerated by `seen` — or was
contributed by an earlier source record); with `skip=false` the merge
succeeds iff no record conflicts, the first conflict aborting the rest, and
an aborted merge returns no index value for the caller to persist. -/
theorem merge_folder_policies (idx : RepositoryIndex) (ops recs : List PackageRecord)
    (now : Nat) (seenOp seenRec : List (String × String))
    (hop : ∀ n v, hasNameVersion idx.operator n v = true ↔ (n, v) ∈ seenOp)
    (hrec : ∀ n v, hasNameVersion idx.recipe n v = true ↔ (n, v) ∈ seenRec) :
    (∃ i', idx.mergeFolder ops recs false true now = .ok i' ∧
      (∀ n, (i'.operator n).getD [] =
        (idx.operator n).getD [] ++ (keptRecs seenOp ops).filter (fun x => x.name == n)) ∧
      (∀ n, (i'.recipe n).getD [] =
        (idx.recipe n).getD [] ++ (keptRecs seenRec recs).filter (fun x => x.name == n))) ∧
    ((idx.mergeFolder ops recs false false now).isOk = true ↔
      (keptRecs seenOp ops = ops ∧ keptRecs seenRec recs = recs)) := by
  constructor
  · obtain ⟨i₁, h1, hrec₁, hcont₁⟩ := mergeOperatorsGo_skipTrue ops idx seenOp now hop
    have hrec₁' : ∀ n v, hasNameVersion i₁.recipe n v = true ↔ (n, v) ∈ seenRec := by
      intro n v
      rw [hrec₁]
      exact hrec n v
    obtain ⟨i₂, h2, hop₂, hcont₂⟩ := mergeRecipesGo_skipTrue recs i₁ seenRec now hrec₁'
    refine ⟨i₂, ?_, ?_, ?_⟩
    · unfold RepositoryIndex.mergeFolder
      rw [h1]
      exact h2
    · intro n
      rw [hop₂]
      exact hcont₁ n
    · intro n
      rw [hcont₂ n, hrec₁]
  · obtain ⟨hiff₁, hpres₁⟩ := mergeOperatorsGo_skipFalse ops idx seenOp now hop
    unfold RepositoryIndex.mergeFolder
    cases hres : idx.mergeOperatorsGo ops false false now with
    | error e =>
      rw [hres] at hiff₁
      dsimp only
      have hko : ¬ (keptRecs seenOp ops = ops) := by
        intro hk
        have := hiff₁.mpr hk
        simp [Except.isOk, Except.toBool] at this
      constructor
      · intro hok
        simp [Except.isOk, Except.toBool] at hok
      · rintro ⟨h1, -⟩
        exact absurd h1 hko
    | ok i₁ =>
      rw [hres] at hiff₁
      rw [hres] at hpres₁
      dsimp only
      have hkop : keptRecs seenOp ops = ops := hiff₁.mp rfl
      have hrec₁ : i₁.recipe = idx.recipe := hpres₁ i₁ rfl
      have hrec' : ∀ n v, hasNameVersion i₁.recipe n v = true ↔ (n, v) ∈ seenRec := by
        intro n v
        rw [hrec₁]
        exact hrec n v
      rw [mergeRecipesGo_skipFalse recs i₁ seenRec now hrec']
      constructor
      · intro h2
        exact ⟨hkop, h2⟩
      · rintro ⟨-, h2⟩
        exact h2

/-- Witness for C6: merging two same-name-and-version recipe records into an
empty index under the strict policy fails, matching the kept-records test. -/
theorem merge_folder_policies_witness :
    (RepositoryIndex.mergeFolder emptyIndex []
      [⟨"a", "1", "d", "u"⟩, ⟨"a", "1", "d2", "u2"⟩] false false 0).isOk = true ↔
    (keptRecs [] ([] : List PackageRecord) = [] ∧
      keptRecs [] [⟨"a", "1", "d", "u"⟩, ⟨"a", "1", "d2", "u2"⟩] =
        [⟨"a", "1", "d", "u"⟩, ⟨"a", "1", "d2", "u2"⟩]) :=
  (merge_folder_policies emptyIndex [] [⟨"a", "1", "d", "u"⟩, ⟨"a", "1", "d2", "u2"⟩] 0 [] []
    (by
      intro n v
      simp [hasNameVersion, emptyIndex])
    (by
      intro n v
      simp [hasNameVersion, emptyIndex])).2

/-- Claim C9: `from_folder` is order-independent: enumerating the same package
folders in two different orders yields the same success/failure outcome, and
on success the records present for each kind and name are the same (the two
lists are permutations of one another). -/
theorem from_folder_order_independent (ops₁ ops₂ recs₁ recs₂ : List PackageRecord)
    (now₁ now₂ : Nat) (hops : ops₁.Perm ops₂) (hrecs : recs₁.Perm recs₂) :
    ((RepositoryIndex.fromFolder ops₁ recs₁ now₁).isOk =
      (RepositoryIndex.fromFolder ops₂ recs₂ now₂).isOk) ∧
    (∀ i₁ i₂, RepositoryIndex.fromFolder ops₁ recs₁ now₁ = .ok i₁ →
      RepositoryIndex.fromFolder ops₂ recs₂ now₂ = .ok i₂ →
      ∀ n, ((i₁.operator n).getD []).Perm ((i₂.operator n).getD []) ∧
        ((i₁.recipe n).getD []).Perm ((i₂.recipe n).getD [])) := by
  obtain ⟨hiff₁, hok₁⟩ := fromFolder_char ops₁ recs₁ now₁
  obtain ⟨hiff₂, hok₂⟩ := fromFolder_char ops₂ recs₂ now₂
  have hkopiff : keysNodup ops₁ ↔ keysNodup ops₂ := (hops.map recordKey).nodup_iff
  have hkreciff : keysNodup recs₁ ↔ keysNodup recs₂ := (hrecs.map recordKey).nodup_iff
  constructor
  · have hbiff : (RepositoryIndex.fromFolder ops₁ recs₁ now₁).isOk = true ↔
        (RepositoryIndex.fromFolder ops₂ recs₂ now₂).isOk = true := by
      rw [hiff₁, hiff₂]
      exact and_congr hkopiff hkreciff
    by_cases hb : (RepositoryIndex.fromFolder ops₁ recs₁ now₁).isOk = true
    · rw [hb, hbiff.mp hb]
    · have hb' : ¬ (RepositoryIndex.fromFolder ops₂ recs₂ now₂).isOk = true :=
        fun h => hb (hbiff.mpr h)
      rw [Bool.not_eq_true] at hb hb'
      rw [hb, hb']
  · intro i₁ i₂ h1 h2 n
    obtain ⟨hop₁, hrec₁⟩ := hok₁ i₁ h1
    obtain ⟨hop₂, hrec₂⟩ := hok₂ i₂ h2
    constructor
    · rw [hop₁ n, hop₂ n]
      exact hops.filter _
    · rw [hrec₁ n, hrec₂ n]
      exact hrecs.filter _

/-- Witness for C9: two enumeration orders of the same two operator packages
produce the same outcome. -/
theorem from_folder_order_independent_witness :
    (RepositoryIndex.fromFolder [⟨"a", "1", "d", "u"⟩, ⟨"b", "1", "e", "w"⟩] [] 0).isOk =
    (RepositoryIndex.fromFolder [⟨"b", "1", "e", "w"⟩, ⟨"a", "1", "d", "u"⟩] [] 1).isOk :=
  (from_folder_order_independent
    [⟨"a", "1", "d", "u"⟩, ⟨"b", "1", "e", "w"⟩]
    [⟨"b", "1", "e", "w"⟩, ⟨"a", "1", "d", "u"⟩]
    [] [] 0 1 (List.Perm.swap _ _ _) (List.Perm.refl [])).1

end Queenbee
